import Mathlib

/-!
# Verification of `pkg/utils/find_ood.go`

A shallow embedding of `LoadLastCommitDate` and `CompareCommitDates` and of the Go
standard-library functions they call (`strings.Contains`, `strings.Split`, `strings.Trim`,
`regexp.FindStringSubmatch` for the pattern `T(\d+)`, `strconv.Atoi`, `strconv.Itoa`).

Go strings are modelled by `String` (its `data : List Char`); Go's `int` is the 64-bit
signed integer, modelled by `Int` with explicit wrap-around on `lowerBound++`.
Console output (`fmt.Println`) is not part of the model.
-/

namespace FindOOD

/-! ## Outcomes of running Go code -/

/-- Outcome of running a piece of the program: it returns a value, it panics, it calls
`os.Exit(1)`, or the model ran out of fuel before the loop finished. -/
inductive Run (α : Type) where
  | done (a : α)
  | panicked
  | exited
  | outOfFuel
  deriving DecidableEq

/-! ## Data types of the source -/

/-- The Go struct `CommitInfo`; `Date` is the field `Commit.Author.Date`. -/
structure CommitInfo where
  Date : String
  deriving DecidableEq

/-- The Go struct `Content`. -/
structure Content where
  Name : String
  Path : String
  deriving DecidableEq

/-- Modelled from the spec: the type `types.TestSpec` is declared in `pkg/types`, which is
not among the sources; the spec's LocalTestSpec is `{technique, testID, sourceFile}` and
the code reads only the field `Technique`. -/
structure TestSpec where
  Technique : String
  TestID : String
  SourceFile : String
  deriving DecidableEq

/-- The Go map `dateMap : map[string]string`, as an association list with distinct keys. -/
abbrev DateMap := List (String × String)

/-- The lookup `dateMap[k]` (with the presence flag). -/
def DateMap.get (m : DateMap) (k : String) : Option String :=
  match m with
  | [] => none
  | (k', v) :: rest => if k = k' then some v else DateMap.get rest k

/-- The assignment `dateMap[k] = v`: any older binding of `k` is replaced. -/
def DateMap.set (m : DateMap) (k v : String) : DateMap :=
  (k, v) :: m.filter (fun p => p.1 ≠ k)

/-! ## Go standard library -/

/-- The Go call `strings.Contains(s, "-")`, for a one-character substring `sep`. -/
def strings.Contains (s : String) (sep : Char) : Bool :=
  s.data.contains sep

/-- Splitting a character list at every occurrence of `sep`. -/
def strings.splitChars (sep : Char) : List Char → List (List Char)
  | [] => [[]]
  | c :: cs =>
    if c = sep then [] :: strings.splitChars sep cs
    else
      match strings.splitChars sep cs with
      | [] => [[c]]
      | p :: ps => (c :: p) :: ps

/-- The Go call `strings.Split(s, "-")`, for a one-character separator `sep`. -/
def strings.Split (s : String) (sep : Char) : List String :=
  (strings.splitChars sep s.data).map String.mk

/-- The Go call `strings.Trim(s, "T")`, for a one-character cutset: all leading and
trailing occurrences of `cut` are removed. -/
def strings.Trim (s : String) (cut : Char) : String :=
  ⟨((s.data.dropWhile (fun c => c = cut)).reverse.dropWhile (fun c => c = cut)).reverse⟩

/-- Leftmost match of `T(\d+)` in a character list: `(match[0], match[1])`. -/
def re.findChars : List Char → Option (List Char × List Char)
  | [] => none
  | c :: cs =>
    if c = 'T' ∧ cs.takeWhile Char.isDigit ≠ [] then
      some ('T' :: cs.takeWhile Char.isDigit, cs.takeWhile Char.isDigit)
    else re.findChars cs

/-- The Go call `re.FindStringSubmatch(s)` for `re = regexp.MustCompile("T(\\d+)")`:
`nil` (the empty slice) when there is no match, else the whole match followed by the
text of the capture group. -/
def re.FindStringSubmatch (s : String) : List String :=
  match re.findChars s.data with
  | none => []
  | some (whole, group) => [⟨whole⟩, ⟨group⟩]

/-- The two errors of `strconv`. -/
inductive NumError where
  | ErrSyntax
  | ErrRange
  deriving DecidableEq

/-- The digit loop of `strconv.ParseUint(s, 10, 64)`, with the accumulator `n : uint64`. -/
def strconv.parseUintLoop : List Char → Nat → Nat × Option NumError
  | [], n => (n, none)
  | c :: cs, n =>
    if !c.isDigit then (0, some .ErrSyntax)
    else if n ≥ (2 ^ 64 - 1) / 10 + 1 then (2 ^ 64 - 1, some .ErrRange)
    else
      let n' := n * 10
      let n1 := (n' + (c.toNat - 48)) % 2 ^ 64
      if n1 < n' ∨ n1 > 2 ^ 64 - 1 then (2 ^ 64 - 1, some .ErrRange)
      else strconv.parseUintLoop cs n1

/-- The Go call `strconv.ParseUint(s, 10, 64)`. -/
def strconv.ParseUint (s : List Char) : Nat × Option NumError :=
  match s with
  | [] => (0, some .ErrSyntax)
  | _ => strconv.parseUintLoop s 0

/-- The Go call `strconv.ParseInt(s, 10, 0)` with `IntSize = 64`. -/
def strconv.ParseInt (s : List Char) : Int × Option NumError :=
  match s with
  | [] => (0, some .ErrSyntax)
  | c :: cs =>
    let neg := c = '-'
    let body := if c = '+' ∨ c = '-' then cs else c :: cs
    match strconv.ParseUint body with
    | (_, some .ErrSyntax) => (0, some .ErrSyntax)
    | (un, _) =>
      if ¬ neg ∧ un ≥ 2 ^ 63 then (2 ^ 63 - 1, some .ErrRange)
      else if neg ∧ un > 2 ^ 63 then (-(2 ^ 63), some .ErrRange)
      else if neg then (-(un : Int), none) else ((un : Int), none)

/-- The digit loop of the fast path of `strconv.Atoi`. -/
def strconv.atoiFast : List Char → Int → Option Int
  | [], n => some n
  | c :: cs, n => if c.isDigit then strconv.atoiFast cs (n * 10 + ((c.toNat - 48 : Nat) : Int)) else none

/-- The Go call `strconv.Atoi(s)`: the value and the error (`none` is Go's `nil`). Strings
of 1 to 18 bytes take the fast path, all others go through `ParseInt`. -/
def strconv.Atoi (s : String) : Int × Option NumError :=
  if 0 < s.utf8ByteSize ∧ s.utf8ByteSize < 19 then
    match s.data with
    | [] => (0, some .ErrSyntax)
    | c :: cs =>
      let body := if c = '-' ∨ c = '+' then cs else c :: cs
      if body = [] then (0, some .ErrSyntax)
      else
        match strconv.atoiFast body 0 with
        | none => (0, some .ErrSyntax)
        | some n => if c = '-' then (-n, none) else (n, none)
  else strconv.ParseInt s.data

/-- The Go call `strconv.Itoa(i)`. -/
def strconv.Itoa (i : Int) : String :=
  if i < 0 then "-" ++ Nat.repr i.natAbs else Nat.repr i.natAbs

/-- The value of a Go `int` (64 bits, two's complement) after an arithmetic operation. -/
def wrapInt (x : Int) : Int := (x + 2 ^ 63) % 2 ^ 64 - 2 ^ 63

/-! ## The program -/

/-- What the program reads from outside: the decoded answer of the contents URL for a
directory (`none` when the request, the read or the JSON decoding fails), the decoded
answer of the commits URL for a path (likewise), whether `commits.json` can be written,
and what `utils.LoadAtomicsIndexCsv` stores into `atomicTests` (`none` when it returns
an error), in the order in which the Go map is iterated. -/
structure World where
  listing : String → Option (List Content)
  commits : String → Option (List CommitInfo)
  canWrite : Bool
  atomicTests : Option (List (String × List TestSpec))

/-- The Go function `LoadAtomicsFromRepo(repo, path)`: a failed request leaves `resp` nil
and `resp.Body` panics; a failed read or decoding calls `panic(err)`. -/
def LoadAtomicsFromRepo (w : World) (path : String) : Run (List Content) :=
  match w.listing path with
  | none => .panicked
  | some data => .done data

/-- The Go function `LoadLastCommitDate(repo, path)`: every failure panics, and so does
`commitResponse[0]` on an empty slice; otherwise the date of element 0 is returned,
after `commits.json` has been written. -/
def LoadLastCommitDate (w : World) (path : String) : Run String :=
  match w.commits path with
  | none => .panicked
  | some commitResponse =>
    match commitResponse with
    | [] => .panicked
    | c :: _ => if w.canWrite then .done c.Date else .panicked

/-- The loop `for lowerBound <= upperBound { dateMap["T"+Itoa(lowerBound)] = date;
lowerBound++ }`; one unit of fuel is spent on each evaluation of the loop condition. -/
def rangeLoop : Nat → Int → Int → String → DateMap → Run DateMap
  | 0, _, _, _, _ => .outOfFuel
  | fuel + 1, lowerBound, upperBound, date, dateMap =>
    if lowerBound ≤ upperBound then
      rangeLoop fuel (wrapInt (lowerBound + 1)) upperBound date
        (dateMap.set ("T" ++ strconv.Itoa lowerBound) date)
    else .done dateMap

/-- The body of the loop over `scwksData` after the date has been looked up: the
processing of the file name (lines 156-210). A `continue` returns the map unchanged. -/
def processName (fuel : Nat) (name date : String) (dateMap : DateMap) : Run DateMap :=
  if strings.Contains name '-' then
    match strings.Split name '-' with
    | i :: j :: _ =>
      let found := re.FindStringSubmatch j
      let j := match found with
        | _ :: g :: _ => g
        | _ => j
      let lowerIndex := strings.Trim i 'T'
      let upperIndex := strings.Trim j 'T'
      match strconv.Atoi lowerIndex with
      | (_, some _) => .done dateMap
      | (lowerBound, none) =>
        let upperBound := (strconv.Atoi upperIndex).1
        rangeLoop fuel lowerBound upperBound date dateMap
    | _ => .panicked
  else
    match re.FindStringSubmatch name with
    | _ :: mappableFileName :: _ =>
      if mappableFileName.utf8ByteSize > 0 then .done (dateMap.set mappableFileName date)
      else .done dateMap
    | _ => .done dateMap

/-- One iteration of the loop over `scwksData` (lines 149-213). -/
def processFile (fuel : Nat) (w : World) (file : Content) (dateMap : DateMap) : Run DateMap :=
  match LoadLastCommitDate w file.Path with
  | .done date => processName fuel file.Name date dateMap
  | .panicked => .panicked
  | .exited => .exited
  | .outOfFuel => .outOfFuel

/-- The loop `for _, file := range scwksData` (lines 149-213). -/
def buildDateMap (fuel : Nat) (w : World) : List Content → DateMap → Run DateMap
  | [], dateMap => .done dateMap
  | file :: rest, dateMap =>
    match processFile fuel w file dateMap with
    | .done dateMap' => buildDateMap fuel w rest dateMap'
    | .panicked => .panicked
    | .exited => .exited
    | .outOfFuel => .outOfFuel

/-- The inner loop `for _, test := range entries { ...; break }` (lines 231-244). -/
def appendFirst (found : List Content) : List TestSpec → List Content
  | [] => found
  | test :: _ => found ++ [⟨test.Technique, "atomics/" ++ test.Technique⟩]

/-- The loop `for _, entries := range atomicTests` (lines 230-245). -/
def assembleFound : List (String × List TestSpec) → List Content → List Content
  | [], found => found
  | (_, entries) :: rest, found => assembleFound rest (appendFirst found entries)

/-- The Go function `CompareCommitDates()`; the result is the final value of the local
variables `dateMap` and `found`. -/
def CompareCommitDates (fuel : Nat) (w : World) : Run (DateMap × List Content) :=
  match LoadAtomicsFromRepo w "/windows" with
  | .done windows =>
    match LoadAtomicsFromRepo w "/macos" with
    | .done macos =>
      match buildDateMap fuel w (windows ++ macos) [] with
      | .done dateMap =>
        match w.atomicTests with
        | none => .exited
        | some atomicTests => .done (dateMap, assembleFound atomicTests [])
      | .panicked => .panicked
      | .exited => .exited
      | .outOfFuel => .outOfFuel
    | .panicked => .panicked
    | .exited => .exited
    | .outOfFuel => .outOfFuel
  | .panicked => .panicked
  | .exited => .exited
  | .outOfFuel => .outOfFuel

/-- The bounds with which the expansion loop is entered for a file name (lines 157-185):
`none` when the name has no `-` or its lower bound does not parse (`continue`). -/
def loopBounds (name : String) : Option (Int × Int) :=
  if strings.Contains name '-' then
    match strings.Split name '-' with
    | i :: j :: _ =>
      let found := re.FindStringSubmatch j
      let j := match found with
        | _ :: g :: _ => g
        | _ => j
      let lowerIndex := strings.Trim i 'T'
      let upperIndex := strings.Trim j 'T'
      match strconv.Atoi lowerIndex with
      | (_, some _) => none
      | (lowerBound, none) => some (lowerBound, (strconv.Atoi upperIndex).1)
    | _ => none
  else none

/-- The file name does not enter the expansion loop with the largest `int` as upper
bound. -/
def upperBelowMaxInt (name : String) : Bool :=
  match loopBounds name with
  | some (_, upperBound) => decide (upperBound < 2 ^ 63 - 1)
  | none => true

/-! ## Notions of the specification -/

/-- Spec: the TechniqueID pattern, the letter `T` followed by one or more decimal digits. -/
def isTechniqueID (s : String) : Bool :=
  match s.data with
  | 'T' :: d :: ds => (d :: ds).all Char.isDigit
  | _ => false

/-- Writing the keys `ks`, in this order, with one date. -/
def setAll (ks : List String) (date : String) (m : DateMap) : DateMap :=
  ks.foldl (fun acc k => acc.set k date) m

/-- Reading decimal digits after the number `n`. -/
def decimalFrom (n : Nat) (ds : List Char) : Nat :=
  ds.foldl (fun acc c => acc * 10 + (c.toNat - 48)) n

/-- Spec: the number denoted by a string of decimal digits. -/
def decimalValue (ds : List Char) : Nat := decimalFrom 0 ds

/-- Spec: a decimal number, a non-empty string of decimal digits. -/
def isDecimal (ds : List Char) : Bool := !ds.isEmpty && ds.all Char.isDigit

/-- Spec: the text does not start with a decimal digit. -/
def noLeadingDigit (s : List Char) : Bool :=
  match s with
  | [] => true
  | c :: _ => !c.isDigit

/-- Spec: the keys `T<lo>`, `T<lo+1>`, ... of `n` consecutive numbers, in increasing
order. -/
def rangeKeys (lo : Int) : Nat → List String
  | 0 => []
  | n + 1 => ("T" ++ strconv.Itoa lo) :: rangeKeys (lo + 1) n

/-- Spec: the range file name `T<a>-T<b><suffix>`, for the digit strings `a` and `b`. -/
def rangeName (a b suffix : List Char) : String :=
  ⟨'T' :: (a ++ '-' :: 'T' :: (b ++ suffix))⟩

/-- The entry `file` writes the key `k`: processed alone, from the empty map, it leaves
`k` bound. -/
def writesKey (fuel : Nat) (w : World) (file : Content) (k : String) : Bool :=
  match processFile fuel w file [] with
  | .done m => (m.get k).isSome
  | _ => false

/-- The date looked up for the entry `file`, when the lookup returns. -/
def lookedUpDate (w : World) (file : Content) : Option String :=
  match LoadLastCommitDate w file.Path with
  | .done date => some date
  | _ => none

/-- Spec: the date looked up for the last entry, in listing order, whose name writes `k`;
`none` when no entry writes `k`. -/
def lastWriterDate (fuel : Nat) (w : World) (listing : List Content) (k : String) :
    Option String :=
  (listing.reverse.find? (fun file => writesKey fuel w file k)).bind (lookedUpDate w)

/-- Lexicographic comparison of two character lists: the first is not after the second. -/
def notLater : List Char → List Char → Bool
  | [], _ => true
  | _ :: _, [] => false
  | a :: as, b :: bs => a < b || (a = b && notLater as bs)

/-- Spec: timestamps in the format of the commits API (`2023-05-25T20:38:57Z`) are in
chronological order exactly when they are in lexicographic order. -/
def dateLE (a b : String) : Bool := notLater a.data b.data

/-- Spec: the report entry that lists the local technique `tid`. -/
def localEntry (tid : String) : Content := ⟨tid, "atomics/" ++ tid⟩

/-! ## Concrete inputs used below -/

/-- A remote with the single macOS file `T1000_macos.csv` and an empty local index. -/
def singletonWorld : World where
  listing := fun p =>
    if p = "/macos" then some [⟨"T1000_macos.csv", "macos/T1000_macos.csv"⟩] else some []
  commits := fun _ => some [⟨"2023-05-25T20:38:57Z"⟩]
  canWrite := true
  atomicTests := some []

/-- The listing `[A covering T1-T5, B covering T3-T4]` of the spec. -/
def overlapListing : List Content :=
  [⟨"T1-T5.csv", "windows/T1-T5.csv"⟩, ⟨"T3-T4.csv", "windows/T3-T4.csv"⟩]

/-- A remote where file A was last committed on day 1 and file B on day 2; the local
index knows the techniques T1 and T9. -/
def overlapWorld : World where
  listing := fun p => if p = "/windows" then some overlapListing else some []
  commits := fun p =>
    if p = "windows/T1-T5.csv" then some [⟨"2023-05-01T00:00:00Z"⟩]
    else some [⟨"2023-05-02T00:00:00Z"⟩]
  canWrite := true
  atomicTests := some [("T1", [⟨"T1", "1", "T1/T1.yaml"⟩]), ("T9", [⟨"T9", "1", "T9/T9.yaml"⟩])]

/-- A remote answering the commits request with an older commit before a newer one. -/
def unorderedWorld : World where
  listing := fun _ => some []
  commits := fun _ => some [⟨"2023-01-01T00:00:00Z"⟩, ⟨"2023-05-25T20:38:57Z"⟩]
  canWrite := true
  atomicTests := some []

/-- A remote answering the commits request with the newest commit first. -/
def orderedWorld : World where
  listing := fun _ => some []
  commits := fun _ => some [⟨"2023-05-25T20:38:57Z"⟩, ⟨"2023-01-01T00:00:00Z"⟩]
  canWrite := true
  atomicTests := some []

/-- A remote with no commits for `windows/T7-T8.csv` and one commit for every other path. -/
def emptyLookupWorld : World where
  listing := fun _ => some []
  commits := fun p => if p = "windows/T7-T8.csv" then some [] else some [⟨"2023-05-01T00:00:00Z"⟩]
  canWrite := true
  atomicTests := some []

/-- A remote with the single file `T1-T1.csv`; the local index knows T1 and T9. -/
def onlyT1World : World where
  listing := fun p => if p = "/windows" then some [⟨"T1-T1.csv", "windows/T1-T1.csv"⟩] else some []
  commits := fun _ => some [⟨"2023-05-01T00:00:00Z"⟩]
  canWrite := true
  atomicTests := some [("T1", [⟨"T1", "1", "T1/T1.yaml"⟩]), ("T9", [⟨"T9", "1", "T9/T9.yaml"⟩])]

/-- The same local index as `onlyT1World`, with no remote file at all. -/
def noRemoteWorld : World where
  listing := fun _ => some []
  commits := fun _ => some [⟨"2023-05-01T00:00:00Z"⟩]
  canWrite := true
  atomicTests := some [("T1", [⟨"T1", "1", "T1/T1.yaml"⟩]), ("T9", [⟨"T9", "1", "T9/T9.yaml"⟩])]

/-! ## The date map -/

theorem get_filter_ne (m : DateMap) (k k' : String) (h : k' ≠ k) :
    DateMap.get (m.filter (fun p => p.1 ≠ k)) k' = DateMap.get m k' := by
  induction m with
  | nil => rfl
  | cons p rest ih =>
    obtain ⟨a, b⟩ := p
    by_cases hak : a = k
    · have hka : k' ≠ a := fun e => h (e.trans hak)
      rw [List.filter_cons_of_neg (by simpa using hak), ih]
      simp [DateMap.get, hka]
    · rw [List.filter_cons_of_pos (by simpa using hak)]
      by_cases hka : k' = a
      · simp [DateMap.get, hka]
      · rw [DateMap.get, if_neg hka, ih, DateMap.get, if_neg hka]

theorem get_set (m : DateMap) (k v k' : String) :
    (m.set k v).get k' = if k' = k then some v else m.get k' := by
  by_cases h : k' = k
  · simp [DateMap.set, DateMap.get, h]
  · rw [if_neg h, DateMap.set, DateMap.get, if_neg h]
    exact get_filter_ne m k k' h

theorem get_setAll (ks : List String) (date : String) (m : DateMap) (k : String) :
    (setAll ks date m).get k = if k ∈ ks then some date else m.get k := by
  induction ks generalizing m with
  | nil => simp [setAll]
  | cons a rest ih =>
    have h := ih (m.set a date)
    simp only [setAll, List.foldl_cons] at h ⊢
    rw [h, get_set]
    by_cases hr : k ∈ rest
    · simp [hr]
    · by_cases ha : k = a
      · simp [ha]
      · simp [hr, ha]

/-! ## The expansion loop -/

theorem wrapInt_range (x : Int) : -(2 ^ 63) ≤ wrapInt x ∧ wrapInt x ≤ 2 ^ 63 - 1 := by
  unfold wrapInt
  have h1 := Int.emod_nonneg (x + 2 ^ 63) (show (2 ^ 64 : Int) ≠ 0 by norm_num)
  have h2 := Int.emod_lt_of_pos (x + 2 ^ 63) (show (0 : Int) < 2 ^ 64 by norm_num)
  constructor <;> omega

theorem wrapInt_of_range (x : Int) (h1 : -(2 ^ 63) ≤ x) (h2 : x ≤ 2 ^ 63 - 1) : wrapInt x = x := by
  unfold wrapInt
  rw [Int.emod_eq_of_lt (by omega) (by omega)]
  omega

/-- With the largest `int` as upper bound the loop condition never becomes false. -/
theorem rangeLoop_maxInt (fuel : Nat) (lowerBound : Int) (date : String) (m : DateMap)
    (h : lowerBound ≤ 2 ^ 63 - 1) :
    rangeLoop fuel lowerBound (2 ^ 63 - 1) date m = .outOfFuel := by
  induction fuel generalizing lowerBound m with
  | zero => rfl
  | succ n ih =>
    rw [rangeLoop, if_pos h]
    exact ih _ _ (wrapInt_range _).2

/-- Whether the loop finishes, and which keys it writes, does not depend on the map. -/
theorem rangeLoop_trace (fuel : Nat) (lowerBound upperBound : Int) (date : String) :
    (∀ m, rangeLoop fuel lowerBound upperBound date m = .outOfFuel) ∨
    ∃ ks, ∀ m, rangeLoop fuel lowerBound upperBound date m = .done (setAll ks date m) := by
  induction fuel generalizing lowerBound with
  | zero => exact Or.inl (fun _ => rfl)
  | succ n ih =>
    by_cases h : lowerBound ≤ upperBound
    · rcases ih (wrapInt (lowerBound + 1)) with hout | ⟨ks, hks⟩
      · exact Or.inl (fun m => by rw [rangeLoop, if_pos h, hout])
      · refine Or.inr ⟨("T" ++ strconv.Itoa lowerBound) :: ks, fun m => ?_⟩
        rw [rangeLoop, if_pos h, hks]
        rfl
    · exact Or.inr ⟨[], fun m => by rw [rangeLoop, if_neg h]; rfl⟩

/-- The outcome of processing a name is one of: the keys `ks` are written in order, the
model runs out of fuel, or the code panics; which one does not depend on the map. -/
theorem processName_trace (fuel : Nat) (name date : String) :
    (∃ ks, ∀ m, processName fuel name date m = .done (setAll ks date m)) ∨
    (∀ m, processName fuel name date m = .outOfFuel) ∨
    (∀ m, processName fuel name date m = .panicked) := by
  unfold processName
  split
  · split
    · rename_i i j _ _
      cases hlo : strconv.Atoi (strings.Trim i 'T') with
      | mk v e =>
        cases e with
        | some err => exact Or.inl ⟨[], fun m => by simp only [hlo]; rfl⟩
        | none =>
          simp only [hlo]
          generalize (strconv.Atoi _).1 = upperBound
          rcases rangeLoop_trace fuel v upperBound date with hout | ⟨ks, hks⟩
          · exact Or.inr (Or.inl hout)
          · exact Or.inl ⟨ks, hks⟩
    · exact Or.inr (Or.inr (fun _ => rfl))
  · split
    · split
      · exact Or.inl ⟨[_], fun m => rfl⟩
      · exact Or.inl ⟨[], fun m => rfl⟩
    · exact Or.inl ⟨[], fun m => rfl⟩

/-- An entry that is processed to the end had its date looked up and wrote a list of
keys that does not depend on the map it started from. -/
theorem processFile_trace (fuel : Nat) (w : World) (file : Content) (m0 m1 : DateMap)
    (h : processFile fuel w file m0 = .done m1) :
    ∃ date ks, LoadLastCommitDate w file.Path = .done date ∧
      (∀ m, processFile fuel w file m = .done (setAll ks date m)) ∧
      m1 = setAll ks date m0 := by
  unfold processFile at h
  cases hd : LoadLastCommitDate w file.Path with
  | done date =>
    rw [hd] at h
    simp only at h
    rcases processName_trace fuel file.Name date with ⟨ks, hks⟩ | hout | hp
    · refine ⟨date, ks, rfl, fun m => ?_, ?_⟩
      · unfold processFile
        rw [hd]
        exact hks m
      · rw [hks m0] at h
        exact (Run.done.inj h).symm
    · rw [hout m0] at h
      cases h
    · rw [hp m0] at h
      cases h
  | panicked => rw [hd] at h; cases h
  | exited => rw [hd] at h; cases h
  | outOfFuel => rw [hd] at h; cases h

/-! ## The loop over the listing -/

theorem buildDateMap_append (fuel : Nat) (w : World) (pre rest : List Content)
    (m0 m1 : DateMap) (h : buildDateMap fuel w pre m0 = .done m1) :
    buildDateMap fuel w (pre ++ rest) m0 = buildDateMap fuel w rest m1 := by
  induction pre generalizing m0 with
  | nil =>
    rw [buildDateMap] at h
    rw [List.nil_append, Run.done.inj h]
  | cons file tl ih =>
    rw [buildDateMap] at h
    rw [List.cons_append, buildDateMap]
    cases hf : processFile fuel w file m0 with
    | done m' =>
      rw [hf] at h
      exact ih m' h
    | panicked => rw [hf] at h; cases h
    | exited => rw [hf] at h; cases h
    | outOfFuel => rw [hf] at h; cases h

theorem writesKey_of_trace (fuel : Nat) (w : World) (file : Content) (date : String)
    (ks : List String) (h : ∀ m, processFile fuel w file m = .done (setAll ks date m))
    (k : String) : writesKey fuel w file k = decide (k ∈ ks) := by
  unfold writesKey
  rw [h []]
  simp only [get_setAll]
  by_cases hk : k ∈ ks <;> simp [hk, DateMap.get]

theorem lookedUpDate_of_writesKey (fuel : Nat) (w : World) (file : Content) (k : String)
    (h : writesKey fuel w file k = true) : ∃ date, lookedUpDate w file = some date := by
  unfold writesKey at h
  cases hp : processFile fuel w file [] with
  | done m =>
    obtain ⟨date, ks, hd, _, _⟩ := processFile_trace fuel w file [] m hp
    exact ⟨date, by unfold lookedUpDate; rw [hd]⟩
  | panicked => rw [hp] at h; cases h
  | exited => rw [hp] at h; cases h
  | outOfFuel => rw [hp] at h; cases h

/-- Last writer wins, from any starting map. -/
theorem buildDateMap_get (fuel : Nat) (w : World) (listing : List Content) (m0 m : DateMap)
    (k : String) (h : buildDateMap fuel w listing m0 = .done m) :
    m.get k = (lastWriterDate fuel w listing k).or (m0.get k) := by
  induction listing generalizing m0 with
  | nil =>
    rw [buildDateMap] at h
    rw [← Run.done.inj h]
    simp [lastWriterDate]
  | cons file rest ih =>
    rw [buildDateMap] at h
    cases hf : processFile fuel w file m0 with
    | done m1 =>
      rw [hf] at h
      obtain ⟨date, ks, hd, hall, hm1⟩ := processFile_trace fuel w file m0 m1 hf
      have hw := writesKey_of_trace fuel w file date ks hall k
      have hl : lookedUpDate w file = some date := by unfold lookedUpDate; rw [hd]
      have hrec := ih m1 h
      rw [hrec, hm1, get_setAll]
      unfold lastWriterDate at hrec ⊢
      rw [List.reverse_cons, List.find?_append]
      cases hfind : rest.reverse.find? (fun file => writesKey fuel w file k) with
      | some g =>
        have hg : writesKey fuel w g k = true := by
          have := List.find?_some hfind
          simpa using this
        obtain ⟨dg, hdg⟩ := lookedUpDate_of_writesKey fuel w g k hg
        simp [hdg]
      | none =>
        by_cases hk : k ∈ ks
        · simp [List.find?, hw, hk, hl]
        · simp [List.find?, hw, hk]
    | panicked => rw [hf] at h; cases h
    | exited => rw [hf] at h; cases h
    | outOfFuel => rw [hf] at h; cases h

theorem notLater_refl (a : List Char) : notLater a a = true := by
  induction a with
  | nil => rfl
  | cons c cs ih => simp [notLater, ih]

theorem assembleFound_eq (atomicTests : List (String × List TestSpec)) (found : List Content)
    (h : ∀ p ∈ atomicTests, ∃ t ts, p.2 = t :: ts ∧ t.Technique = p.1) :
    assembleFound atomicTests found = found ++ atomicTests.map (fun p => localEntry p.1) := by
  induction atomicTests generalizing found with
  | nil => simp [assembleFound]
  | cons p rest ih =>
    obtain ⟨tid, entries⟩ := p
    obtain ⟨t, ts, hts, ht⟩ := h (tid, entries) (List.mem_cons_self _ _)
    simp only at hts ht
    rw [assembleFound, ih _ (fun q hq => h q (List.mem_cons_of_mem _ hq)), hts]
    simp [appendFirst, localEntry, ht]

/-! ## Parsing a range name -/

theorem digit_ne (c : Char) (h : c.isDigit = true) : c ≠ 'T' ∧ c ≠ '-' ∧ c ≠ '+' := by
  refine ⟨?_, ?_, ?_⟩ <;> intro he <;> rw [he] at h <;> exact absurd h (by decide)

theorem splitChars_before_dash (p rest : List Char) (h : ∀ c ∈ p, c ≠ '-') :
    strings.splitChars '-' (p ++ '-' :: rest) = p :: strings.splitChars '-' rest := by
  induction p with
  | nil => simp [strings.splitChars]
  | cons c cs ih =>
    have hc : c ≠ '-' := h c (List.mem_cons_self _ _)
    have := ih (fun x hx => h x (List.mem_cons_of_mem _ hx))
    simp [strings.splitChars, hc, this]

theorem splitChars_head (l : List Char) :
    ∃ tl, strings.splitChars '-' l = l.takeWhile (fun c => c ≠ '-') :: tl := by
  induction l with
  | nil => exact ⟨[], by simp [strings.splitChars]⟩
  | cons c cs ih =>
    obtain ⟨tl, htl⟩ := ih
    by_cases hc : c = '-'
    · exact ⟨strings.splitChars '-' cs, by simp [strings.splitChars, hc]⟩
    · exact ⟨tl, by simp [strings.splitChars, hc, htl]⟩

theorem isDecimal_iff (ds : List Char) :
    isDecimal ds = true ↔ ds ≠ [] ∧ ∀ c ∈ ds, c.isDigit = true := by
  cases ds <;> simp [isDecimal]

theorem takeWhile_digits (ds s : List Char) (hd : ∀ c ∈ ds, c.isDigit = true)
    (hs : noLeadingDigit s = true) : (ds ++ s).takeWhile Char.isDigit = ds := by
  induction ds with
  | nil =>
    cases s with
    | nil => rfl
    | cons c cs =>
      have : c.isDigit = false := by simpa [noLeadingDigit] using hs
      simp [List.takeWhile, this]
  | cons c cs ih =>
    simp [List.takeWhile, hd c (List.mem_cons_self _ _),
      ih (fun x hx => hd x (List.mem_cons_of_mem _ hx))]

theorem takeWhile_notDash (ds s : List Char) (hd : ∀ c ∈ ds, c.isDigit = true) :
    (ds ++ s).takeWhile (fun c => c ≠ '-') = ds ++ s.takeWhile (fun c => c ≠ '-') := by
  induction ds with
  | nil => rfl
  | cons c cs ih =>
    have hc := (digit_ne c (hd c (List.mem_cons_self _ _))).2.1
    rw [List.cons_append, List.takeWhile_cons, if_pos (by simpa using hc),
      ih (fun x hx => hd x (List.mem_cons_of_mem _ hx)), List.cons_append]

theorem noLeadingDigit_takeWhile (s : List Char) (hs : noLeadingDigit s = true) :
    noLeadingDigit (s.takeWhile (fun c => c ≠ '-')) = true := by
  cases s with
  | nil => rfl
  | cons a as =>
    by_cases ha : a = '-'
    · simp [List.takeWhile, ha, noLeadingDigit]
    · simpa [List.takeWhile, ha, noLeadingDigit] using hs

theorem findChars_token (ds s : List Char) (hne : ds ≠ [])
    (hd : ∀ c ∈ ds, c.isDigit = true) (hs : noLeadingDigit s = true) :
    re.findChars ('T' :: (ds ++ s)) = some ('T' :: ds, ds) := by
  rw [re.findChars, takeWhile_digits ds s hd hs, if_pos ⟨rfl, hne⟩]

theorem dropWhile_T_digits (ds : List Char) (hd : ∀ c ∈ ds, c.isDigit = true) :
    ds.dropWhile (fun c => c = 'T') = ds := by
  cases ds with
  | nil => rfl
  | cons c cs =>
    have hc := (digit_ne c (hd c (List.mem_cons_self _ _))).1
    simp [List.dropWhile, hc]

theorem Trim_digits (ds : List Char) (hd : ∀ c ∈ ds, c.isDigit = true) :
    strings.Trim ⟨ds⟩ 'T' = ⟨ds⟩ := by
  unfold strings.Trim
  simp only
  rw [dropWhile_T_digits ds hd,
    dropWhile_T_digits ds.reverse (fun c hc => hd c (List.mem_reverse.mp hc)),
    List.reverse_reverse]

theorem Trim_T_digits (ds : List Char) (hd : ∀ c ∈ ds, c.isDigit = true) :
    strings.Trim ⟨'T' :: ds⟩ 'T' = ⟨ds⟩ := by
  have h := Trim_digits ds hd
  unfold strings.Trim at h ⊢
  simp only [List.dropWhile, decide_True] at h ⊢
  exact h

theorem decimalFrom_ge (n : Nat) (ds : List Char) : n ≤ decimalFrom n ds := by
  induction ds generalizing n with
  | nil => exact Nat.le_refl _
  | cons c cs ih =>
    have := ih (n * 10 + (c.toNat - 48))
    simp only [decimalFrom, List.foldl_cons] at this ⊢
    omega

theorem parseUintLoop_digits (ds : List Char) (n : Nat) (hd : ∀ c ∈ ds, c.isDigit = true)
    (hv : decimalFrom n ds < 2 ^ 64) :
    strconv.parseUintLoop ds n = (decimalFrom n ds, none) := by
  induction ds generalizing n with
  | nil => rfl
  | cons c cs ih =>
    have hc := hd c (List.mem_cons_self _ _)
    have hge := decimalFrom_ge (n * 10 + (c.toNat - 48)) cs
    have hstep : decimalFrom n (c :: cs) = decimalFrom (n * 10 + (c.toNat - 48)) cs := rfl
    rw [hstep] at hv ⊢
    have hlt : n * 10 + (c.toNat - 48) < 2 ^ 64 := Nat.lt_of_le_of_lt hge hv
    rw [strconv.parseUintLoop]
    simp only [hc, Bool.not_true, Bool.false_eq_true, if_false]
    have h1 : ¬ (n ≥ (2 ^ 64 - 1) / 10 + 1) := by
      norm_num at hlt ⊢
      omega
    rw [if_neg h1, Nat.mod_eq_of_lt hlt]
    have h2 : ¬ (n * 10 + (c.toNat - 48) < n * 10 ∨ n * 10 + (c.toNat - 48) > 2 ^ 64 - 1) := by
      norm_num at hlt ⊢
      omega
    rw [if_neg h2]
    exact ih _ (fun x hx => hd x (List.mem_cons_of_mem _ hx)) hv

theorem atoiFast_digits (ds : List Char) (n : Nat) (hd : ∀ c ∈ ds, c.isDigit = true) :
    strconv.atoiFast ds (n : Int) = some ((decimalFrom n ds : Nat) : Int) := by
  induction ds generalizing n with
  | nil => rfl
  | cons c cs ih =>
    have hc := hd c (List.mem_cons_self _ _)
    have := ih (n * 10 + (c.toNat - 48)) (fun x hx => hd x (List.mem_cons_of_mem _ hx))
    rw [strconv.atoiFast, if_pos hc]
    rw [show decimalFrom n (c :: cs) = decimalFrom (n * 10 + (c.toNat - 48)) cs from rfl, ← this]
    push_cast
    rfl

/-- A decimal number below 2^63 is read by `strconv.Atoi` without error. -/
theorem Atoi_decimal (ds : List Char) (hd : isDecimal ds = true)
    (hv : decimalValue ds < 2 ^ 63) :
    strconv.Atoi ⟨ds⟩ = (((decimalValue ds : Nat) : Int), none) := by
  obtain ⟨hne, hdig⟩ := (isDecimal_iff ds).mp hd
  cases ds with
  | nil => exact absurd rfl hne
  | cons c cs =>
    have hc := digit_ne c (hdig c (List.mem_cons_self _ _))
    unfold strconv.Atoi
    split
    · have hf := atoiFast_digits (c :: cs) 0 hdig
      simp only [hc.2.1, hc.2.2, or_self, if_false]
      rw [if_neg (by simp)]
      simp only [Nat.cast_zero] at hf
      rw [hf]
      rfl
    · have hp := parseUintLoop_digits (c :: cs) 0 hdig
        (Nat.lt_trans hv (by norm_num))
      unfold strconv.ParseInt strconv.ParseUint
      simp only [hc.2.1, hc.2.2, or_self, if_false, hp]
      have hv' : ¬ (decimalFrom 0 (c :: cs) ≥ 2 ^ 63) := Nat.not_le.mpr hv
      have hlt63 : decimalFrom 0 (c :: cs) < 9223372036854775808 := by
        have : decimalValue (c :: cs) = decimalFrom 0 (c :: cs) := rfl
        rw [this] at hv
        norm_num at hv
        exact hv
      simp [hlt63, decimalValue]

/-- The range branch of the name processing, once the pieces of the name are known. -/
theorem processName_range (fuel : Nat) (name date : String) (m : DateMap)
    (i j g whole : String) (tl : List String) (lowerBound upperBound : Int)
    (hc : strings.Contains name '-' = true)
    (hsplit : strings.Split name '-' = i :: j :: tl)
    (hre : re.FindStringSubmatch j = [whole, g])
    (hlo : strconv.Atoi (strings.Trim i 'T') = (lowerBound, none))
    (hhi : (strconv.Atoi (strings.Trim g 'T')).1 = upperBound) :
    processName fuel name date m = rangeLoop fuel lowerBound upperBound date m := by
  unfold processName
  rw [if_pos hc]
  simp only [hsplit, hre, hlo, hhi]

/-- A range name `T<a>-T<b><suffix>` whose bounds fit an `int` is expanded by the loop
from the value of `a` to the value of `b`. -/
theorem processName_rangeName (fuel : Nat) (a b suffix : List Char) (date : String)
    (m : DateMap) (ha : isDecimal a = true) (hb : isDecimal b = true)
    (hs : noLeadingDigit suffix = true)
    (hva : decimalValue a < 2 ^ 63) (hvb : decimalValue b < 2 ^ 63) :
    processName fuel (rangeName a b suffix) date m
      = rangeLoop fuel (decimalValue a : Nat) (decimalValue b : Nat) date m := by
  have ha' := (isDecimal_iff a).mp ha
  have hb' := (isDecimal_iff b).mp hb
  have hTa : ∀ c ∈ 'T' :: a, c ≠ '-' := by
    intro c hc
    rcases List.mem_cons.mp hc with rfl | hmem
    · decide
    · exact (digit_ne c (ha'.2 c hmem)).2.1
  obtain ⟨tl, htl⟩ := splitChars_head ('T' :: (b ++ suffix))
  have hj : ('T' :: (b ++ suffix)).takeWhile (fun c => c ≠ '-')
      = 'T' :: (b ++ suffix.takeWhile (fun c => c ≠ '-')) := by
    rw [List.takeWhile_cons, if_pos (by decide), takeWhile_notDash b suffix hb'.2]
  have hsplit : strings.Split (rangeName a b suffix) '-'
      = ⟨'T' :: a⟩ :: ⟨'T' :: (b ++ suffix.takeWhile (fun c => c ≠ '-'))⟩
          :: tl.map String.mk := by
    unfold strings.Split rangeName
    have := splitChars_before_dash ('T' :: a) ('T' :: (b ++ suffix)) hTa
    rw [List.cons_append] at this
    rw [this, htl, hj]
    rfl
  have hre : re.FindStringSubmatch ⟨'T' :: (b ++ suffix.takeWhile (fun c => c ≠ '-'))⟩
      = [⟨'T' :: b⟩, ⟨b⟩] := by
    unfold re.FindStringSubmatch
    simp only
    rw [findChars_token b _ hb'.1 hb'.2 (noLeadingDigit_takeWhile suffix hs)]
  have hcontains : strings.Contains (rangeName a b suffix) '-' = true := by
    simp [strings.Contains, rangeName]
  refine processName_range fuel _ date m _ _ ⟨b⟩ _ _ _ _ hcontains hsplit hre ?_ ?_
  · rw [Trim_T_digits a ha'.2]
    exact Atoi_decimal a ha hva
  · rw [Trim_digits b hb'.2, Atoi_decimal b hb hvb]

/-- Below the largest `int` the loop writes the keys of `lo`, ..., `hi` in increasing
order and stops, provided the fuel exceeds their number. -/
theorem rangeLoop_below_maxInt (n fuel : Nat) (lo hi : Int) (date : String) (m : DateMap)
    (hhi : hi < 2 ^ 63 - 1) (hlo : -(2 ^ 63) ≤ lo) (hn : lo + n = hi + 1) (hfuel : n < fuel) :
    rangeLoop fuel lo hi date m = .done (setAll (rangeKeys lo n) date m) := by
  induction n generalizing fuel lo m with
  | zero =>
    obtain ⟨f, rfl⟩ := Nat.exists_eq_succ_of_ne_zero (Nat.pos_iff_ne_zero.mp hfuel)
    rw [rangeLoop, if_neg (by simp at hn; omega)]
    rfl
  | succ k ih =>
    obtain ⟨f, rfl⟩ := Nat.exists_eq_succ_of_ne_zero
      (Nat.pos_iff_ne_zero.mp (Nat.lt_of_le_of_lt (Nat.zero_le _) hfuel))
    have hle : lo ≤ hi := by push_cast at hn; omega
    rw [rangeLoop, if_pos hle, wrapInt_of_range (lo + 1) (by omega) (by omega)]
    rw [ih f (lo + 1) _ (by omega) (by push_cast at hn; omega) (by omega)]
    rfl

/-- The positive part of the range expansion: a range name `T<a>-T<b><suffix>` with
a <= b and b below the largest `int` writes the keys `T<a>`, ..., `T<b>` in increasing
order, b - a + 1 of them, as soon as the fuel exceeds their number. -/
theorem processName_range_expansion (fuel : Nat) (a b suffix : List Char) (date : String)
    (m : DateMap) (ha : isDecimal a = true) (hb : isDecimal b = true)
    (hs : noLeadingDigit suffix = true) (hab : decimalValue a ≤ decimalValue b)
    (hvb : decimalValue b < 2 ^ 63 - 1)
    (hfuel : decimalValue b - decimalValue a + 1 < fuel) :
    processName fuel (rangeName a b suffix) date m
      = .done (setAll (rangeKeys (decimalValue a : Nat)
          (decimalValue b - decimalValue a + 1)) date m) := by
  rw [processName_rangeName fuel a b suffix date m ha hb hs (by omega) (by omega)]
  apply rangeLoop_below_maxInt _ _ _ _ _ _ _ _ _ hfuel
  · have : ((decimalValue b : Nat) : Int) < ((2 ^ 63 - 1 : Nat) : Int) := by exact_mod_cast hvb
    simpa using this
  · have : (0 : Int) ≤ (decimalValue a : Nat) := Int.natCast_nonneg _
    omega
  · push_cast [Nat.cast_sub hab]
    omega

/-! ## The build finishes -/

theorem splitChars_ne_nil (sep : Char) (l : List Char) :
    ∃ a tl, strings.splitChars sep l = a :: tl := by
  induction l with
  | nil => exact ⟨[], [], rfl⟩
  | cons c cs ih =>
    obtain ⟨a, tl, h⟩ := ih
    by_cases hc : c = sep
    · exact ⟨[], strings.splitChars sep cs, by rw [strings.splitChars, if_pos hc]⟩
    · exact ⟨c :: a, tl, by rw [strings.splitChars, if_neg hc, h]⟩

theorem splitChars_two (sep : Char) (l : List Char) (h : sep ∈ l) :
    ∃ a b tl, strings.splitChars sep l = a :: b :: tl := by
  induction l with
  | nil => exact absurd h (List.not_mem_nil sep)
  | cons c cs ih =>
    by_cases hc : c = sep
    · obtain ⟨a, tl, ha⟩ := splitChars_ne_nil sep cs
      exact ⟨[], a, tl, by rw [strings.splitChars, if_pos hc, ha]⟩
    · have hmem : sep ∈ cs := by
        rcases List.mem_cons.mp h with heq | hm
        · exact absurd heq.symm hc
        · exact hm
      obtain ⟨a, b, tl, hab⟩ := ih hmem
      exact ⟨c :: a, b, tl, by rw [strings.splitChars, if_neg hc, hab]⟩

theorem Split_two (name : String) (h : strings.Contains name '-' = true) :
    ∃ i j tl, strings.Split name '-' = i :: j :: tl := by
  have hmem : '-' ∈ name.data := by
    unfold strings.Contains at h
    exact List.elem_iff.mp h
  obtain ⟨a, b, tl, hab⟩ := splitChars_two '-' name.data hmem
  exact ⟨⟨a⟩, ⟨b⟩, tl.map String.mk, by unfold strings.Split; rw [hab]; rfl⟩

/-- When the loop is entered, the name processing is the loop on the bounds of the name. -/
theorem processName_of_loopBounds (name : String) (lo hi : Int)
    (h : loopBounds name = some (lo, hi)) (fuel : Nat) (date : String) (m : DateMap) :
    processName fuel name date m = rangeLoop fuel lo hi date m := by
  unfold loopBounds at h
  unfold processName
  by_cases hc : strings.Contains name '-' = true
  · rw [if_pos hc] at h ⊢
    obtain ⟨i, j, tl, hs⟩ := Split_two name hc
    simp only [hs] at h ⊢
    cases hlo : strconv.Atoi (strings.Trim i 'T') with
    | mk v e =>
      cases e with
      | some err =>
        simp only [hlo] at h
        cases h
      | none =>
        simp only [hlo] at h ⊢
        obtain ⟨h1, h2⟩ := Prod.mk.inj (Option.some.inj h)
        rw [h1, h2]
  · rw [if_neg hc] at h
    cases h

/-- When the loop is not entered, the name processing returns at once. -/
theorem processName_of_loopBounds_none (name : String) (h : loopBounds name = none)
    (fuel : Nat) (date : String) (m : DateMap) :
    ∃ m', processName fuel name date m = .done m' := by
  unfold loopBounds at h
  unfold processName
  by_cases hc : strings.Contains name '-' = true
  · rw [if_pos hc] at h ⊢
    obtain ⟨i, j, tl, hs⟩ := Split_two name hc
    simp only [hs] at h ⊢
    cases hlo : strconv.Atoi (strings.Trim i 'T') with
    | mk v e =>
      cases e with
      | some err => exact ⟨m, by simp only [hlo]⟩
      | none =>
        simp only [hlo] at h
        cases h
  · rw [if_neg hc]
    split
    · split
      · exact ⟨_, rfl⟩
      · exact ⟨_, rfl⟩
    · exact ⟨_, rfl⟩

/-- From a lower bound that is an `int`, the loop below the largest `int` stops within
`upperBound + 1 - lowerBound` rounds. -/
theorem rangeLoop_finishes_from (n fuel : Nat) (lo hi : Int) (date : String) (m : DateMap)
    (hhi : hi < 2 ^ 63 - 1) (hlo : -(2 ^ 63) ≤ lo) (hn : hi + 1 - lo ≤ n) (hfuel : n < fuel) :
    ∃ m', rangeLoop fuel lo hi date m = .done m' := by
  induction n generalizing fuel lo m with
  | zero =>
    obtain ⟨f, rfl⟩ := Nat.exists_eq_succ_of_ne_zero (Nat.pos_iff_ne_zero.mp hfuel)
    exact ⟨m, by rw [rangeLoop, if_neg (by simp at hn; omega)]⟩
  | succ k ih =>
    obtain ⟨f, rfl⟩ := Nat.exists_eq_succ_of_ne_zero
      (Nat.pos_iff_ne_zero.mp (Nat.lt_of_le_of_lt (Nat.zero_le _) hfuel))
    by_cases hle : lo ≤ hi
    · rw [rangeLoop, if_pos hle, wrapInt_of_range (lo + 1) (by omega) (by omega)]
      exact ih f (lo + 1) _ (by omega) (by push_cast at hn; omega) (by omega)
    · exact ⟨m, by rw [rangeLoop, if_neg hle]⟩

/-- Below the largest `int` as upper bound the loop stops, whatever the lower bound,
once the fuel exceeds `upperBound + 2^63 + 2`. -/
theorem rangeLoop_finishes (fuel : Nat) (lo hi : Int) (date : String) (m : DateMap)
    (hhi : hi < 2 ^ 63 - 1) (hfuel : (hi + 1 + 2 ^ 63).toNat + 1 < fuel) :
    ∃ m', rangeLoop fuel lo hi date m = .done m' := by
  obtain ⟨f, rfl⟩ := Nat.exists_eq_succ_of_ne_zero
    (Nat.pos_iff_ne_zero.mp (Nat.lt_of_le_of_lt (Nat.zero_le _) hfuel))
  by_cases hle : lo ≤ hi
  · rw [rangeLoop, if_pos hle]
    have hr := wrapInt_range (lo + 1)
    have hself := Int.self_le_toNat (hi + 1 + 2 ^ 63)
    exact rangeLoop_finishes_from (hi + 1 + 2 ^ 63).toNat f _ hi date _ hhi hr.1
      (by omega) (by omega)
  · exact ⟨m, by rw [rangeLoop, if_neg hle]⟩

/-- The name processing finishes with enough fuel, unless the loop is entered with the
largest `int` as upper bound. -/
theorem processName_finishes (name : String) (h : upperBelowMaxInt name = true) :
    ∃ N, ∀ fuel, N ≤ fuel → ∀ date m, ∃ m', processName fuel name date m = .done m' := by
  unfold upperBelowMaxInt at h
  cases hb : loopBounds name with
  | none => exact ⟨0, fun fuel _ date m => processName_of_loopBounds_none name hb fuel date m⟩
  | some p =>
    obtain ⟨lo, hi⟩ := p
    rw [hb] at h
    have hhi : hi < 2 ^ 63 - 1 := of_decide_eq_true h
    refine ⟨(hi + 1 + 2 ^ 63).toNat + 2, fun fuel hf date m => ?_⟩
    rw [processName_of_loopBounds name lo hi hb]
    exact rangeLoop_finishes fuel lo hi date m hhi (by omega)

/-- The build finishes with enough fuel when every lookup returns a commit and no name
enters the loop with the largest `int` as upper bound. -/
theorem buildDateMap_finishes (w : World) (listing : List Content)
    (hlook : ∀ file ∈ listing, ∃ c cs, w.commits file.Path = some (c :: cs))
    (hw : w.canWrite = true)
    (hmax : ∀ file ∈ listing, upperBelowMaxInt file.Name = true) :
    ∃ N, ∀ fuel, N ≤ fuel → ∀ m0, ∃ m, buildDateMap fuel w listing m0 = .done m := by
  induction listing with
  | nil => exact ⟨0, fun fuel _ m0 => ⟨m0, rfl⟩⟩
  | cons file rest ih =>
    obtain ⟨Nr, hNr⟩ := ih (fun f hf => hlook f (List.mem_cons_of_mem _ hf))
      (fun f hf => hmax f (List.mem_cons_of_mem _ hf))
    obtain ⟨Nf, hNf⟩ := processName_finishes file.Name (hmax file (List.mem_cons_self _ _))
    obtain ⟨c, cs, hc⟩ := hlook file (List.mem_cons_self _ _)
    refine ⟨max Nf Nr, fun fuel hfuel m0 => ?_⟩
    have hdate : LoadLastCommitDate w file.Path = .done c.Date := by
      unfold LoadLastCommitDate
      rw [hc]
      simp [hw]
    obtain ⟨m1, hm1⟩ := hNf fuel (le_trans (le_max_left _ _) hfuel) c.Date m0
    obtain ⟨m, hm⟩ := hNr fuel (le_trans (le_max_right _ _) hfuel) m1
    refine ⟨m, ?_⟩
    rw [buildDateMap, processFile, hdate]
    simp only [hm1]
    exact hm

/-! ## The keys of a range -/

theorem digitChar_isDigit (m : Nat) (h : m < 10) : (Nat.digitChar m).isDigit = true := by
  interval_cases m <;> rfl

theorem toDigitsCore_isDigit (fuel n : Nat) (ds : List Char)
    (h : ∀ c ∈ ds, c.isDigit = true) :
    ∀ c ∈ Nat.toDigitsCore 10 fuel n ds, c.isDigit = true := by
  induction fuel generalizing n ds with
  | zero => simpa [Nat.toDigitsCore] using h
  | succ f ih =>
    have hd := digitChar_isDigit (n % 10) (Nat.mod_lt _ (by norm_num))
    have hcons : ∀ c ∈ Nat.digitChar (n % 10) :: ds, c.isDigit = true := by
      intro c hc
      rcases List.mem_cons.mp hc with rfl | hmem
      · exact hd
      · exact h c hmem
    rw [Nat.toDigitsCore]
    by_cases h0 : n / 10 = 0
    · simpa [h0] using hcons
    · simp only [h0, if_false]
      exact ih _ _ hcons

theorem toDigitsCore_ne_nil (fuel n : Nat) (ds : List Char) (h : ds ≠ []) :
    Nat.toDigitsCore 10 fuel n ds ≠ [] := by
  induction fuel generalizing n ds with
  | zero => simpa [Nat.toDigitsCore] using h
  | succ f ih =>
    rw [Nat.toDigitsCore]
    by_cases h0 : n / 10 = 0
    · simp [h0]
    · simp only [h0, if_false]
      exact ih _ _ (List.cons_ne_nil _ _)

theorem repr_digits (n : Nat) :
    (Nat.repr n).data ≠ [] ∧ ∀ c ∈ (Nat.repr n).data, c.isDigit = true := by
  have h1 : (Nat.repr n).data = Nat.toDigitsCore 10 (n + 1) n [] := rfl
  rw [h1]
  constructor
  · rw [Nat.toDigitsCore]
    by_cases h0 : n / 10 = 0
    · simp [h0]
    · simp only [h0, if_false]
      exact toDigitsCore_ne_nil _ _ _ (List.cons_ne_nil _ _)
  · exact toDigitsCore_isDigit _ _ _ (fun c hc => absurd hc (List.not_mem_nil c))

theorem Itoa_isTechniqueID (i : Int) (h : 0 ≤ i) :
    isTechniqueID ("T" ++ strconv.Itoa i) = true := by
  obtain ⟨hne, hd⟩ := repr_digits i.natAbs
  unfold strconv.Itoa isTechniqueID
  rw [if_neg (not_lt.mpr h), String.data_append]
  cases hr : (Nat.repr i.natAbs).data with
  | nil => exact absurd hr hne
  | cons d ds =>
    rw [hr] at hd
    show (d :: ds).all Char.isDigit = true
    exact List.all_eq_true.mpr hd

/-- The keys of a range of non-negative numbers all match the TechniqueID pattern. -/
theorem rangeKeys_isTechniqueID (lo : Int) (n : Nat) (h : 0 ≤ lo) :
    ∀ k ∈ rangeKeys lo n, isTechniqueID k = true := by
  induction n generalizing lo with
  | zero => exact fun k hk => absurd hk (List.not_mem_nil k)
  | succ m ih =>
    intro k hk
    rcases List.mem_cons.mp hk with rfl | hmem
    · exact Itoa_isTechniqueID lo h
    · exact ih (lo + 1) (by omega) k hmem

theorem rangeKeys_length (lo : Int) (n : Nat) : (rangeKeys lo n).length = n := by
  induction n generalizing lo with
  | zero => rfl
  | succ m ih => simp [rangeKeys, ih]

end FindOOD

/-! ## Claims -/

/-- C1 (code bug): for the singleton name `T1000_macos.csv`, whose only `T<digits>` pattern
is `T1000`, the name processing writes exactly one key, and that key is the text of the
capture group, `1000`, without the leading `T`. -/
theorem C1_singleton_key_lacks_T (fuel : Nat) (date : String) :
    FindOOD.re.FindStringSubmatch "T1000_macos.csv" = ["T1000", "1000"] ∧
    FindOOD.processName fuel "T1000_macos.csv" date [] = .done [("1000", date)] ∧
    FindOOD.DateMap.get [("1000", date)] "T1000" = none := by
  refine ⟨by decide, rfl, rfl⟩

/-- C2 (code bug): for the range name `T9223372036854775807-T9223372036854775807.csv`
(a = b = the largest `int`) the name processing never finishes, whatever the fuel: after
the key `T9223372036854775807` the counter wraps and the key `T-9223372036854775808` is
written, and the loop goes on from -9223372036854775807. -/
theorem C2_range_at_maxInt_overruns (fuel : Nat) (date : String) (m : FindOOD.DateMap) :
    FindOOD.processName fuel "T9223372036854775807-T9223372036854775807.csv" date m
      = .outOfFuel ∧
    FindOOD.rangeLoop (fuel + 2) 9223372036854775807 9223372036854775807 date m
      = FindOOD.rangeLoop fuel (-9223372036854775807) 9223372036854775807 date
          ((m.set "T9223372036854775807" date).set "T-9223372036854775808" date) := by
  refine ⟨?_, rfl⟩
  have h : FindOOD.processName fuel "T9223372036854775807-T9223372036854775807.csv" date m
      = FindOOD.rangeLoop fuel 9223372036854775807 (2 ^ 63 - 1) date m := rfl
  rw [h]
  exact FindOOD.rangeLoop_maxInt fuel _ date m (by norm_num)

/-- C3 (code bug): with the single remote file `T1000_macos.csv` the date map built by
`CompareCommitDates` has the key `1000`, which does not match the TechniqueID pattern. -/
theorem C3_key_outside_pattern (fuel : Nat) :
    FindOOD.CompareCommitDates fuel FindOOD.singletonWorld
      = .done ([("1000", "2023-05-25T20:38:57Z")], []) ∧
    FindOOD.isTechniqueID "1000" = false := by
  refine ⟨rfl, by decide⟩

/-- C4 (code bug): the upper token of `T0-x.csv` has no `T<digits>` pattern and is not a
number, yet processing the entry inserts the key `T0`; and for an upper token whose
digits overflow, as in `T5-T99999999999999999999.csv`, processing never finishes. -/
theorem C4_unparsed_upper_bound_inserts (fuel : Nat) (date : String) (m : FindOOD.DateMap) :
    FindOOD.re.FindStringSubmatch "x.csv" = [] ∧
    FindOOD.strconv.Atoi "x.csv" = (0, some .ErrSyntax) ∧
    FindOOD.processName (fuel + 2) "T0-x.csv" date [] = .done [("T0", date)] ∧
    FindOOD.strconv.Atoi "99999999999999999999" = (2 ^ 63 - 1, some .ErrRange) ∧
    FindOOD.processName fuel "T5-T99999999999999999999.csv" date m = .outOfFuel := by
  refine ⟨by decide, by decide, rfl, by decide, ?_⟩
  have h : FindOOD.processName fuel "T5-T99999999999999999999.csv" date m
      = FindOOD.rangeLoop fuel 5 (2 ^ 63 - 1) date m := rfl
  rw [h]
  exact FindOOD.rangeLoop_maxInt fuel _ date m (by norm_num)

/-- C5 (counterexample): for the listing `[T1-T2.csv, T7-T8.csv]` with no commits for
`T7-T8.csv`, the first entry writes the key T1, yet there is no final date map: the
build panics, whatever the fuel. -/
theorem C5_counterexample :
    FindOOD.writesKey 5 FindOOD.emptyLookupWorld ⟨"T1-T2.csv", "windows/T1-T2.csv"⟩ "T1"
      = true ∧
    FindOOD.buildDateMap 5 FindOOD.emptyLookupWorld
      [⟨"T1-T2.csv", "windows/T1-T2.csv"⟩, ⟨"T7-T8.csv", "windows/T7-T8.csv"⟩] []
      = .panicked ∧
    ¬ ∃ (fuel : Nat) (m : FindOOD.DateMap),
      FindOOD.buildDateMap fuel FindOOD.emptyLookupWorld
        [⟨"T1-T2.csv", "windows/T1-T2.csv"⟩, ⟨"T7-T8.csv", "windows/T7-T8.csv"⟩] []
        = .done m := by
  refine ⟨by decide, by decide, ?_⟩
  rintro ⟨fuel, m, h⟩
  rw [FindOOD.buildDateMap] at h
  cases hf : FindOOD.processFile fuel FindOOD.emptyLookupWorld
      ⟨"T1-T2.csv", "windows/T1-T2.csv"⟩ [] with
  | done m1 =>
    rw [hf] at h
    have hp : FindOOD.buildDateMap fuel FindOOD.emptyLookupWorld
        [⟨"T7-T8.csv", "windows/T7-T8.csv"⟩] m1 = .panicked := rfl
    have h2 : FindOOD.buildDateMap fuel FindOOD.emptyLookupWorld
        [⟨"T7-T8.csv", "windows/T7-T8.csv"⟩] m1 = .done m := h
    rw [hp] at h2
    cases h2
  | panicked => rw [hf] at h; cases h
  | exited => rw [hf] at h; cases h
  | outOfFuel => rw [hf] at h; cases h

/-- C5 (amended): for every listing in which the commit lookup of every entry returns a
non-empty commit list (and `commits.json` can be written) and no entry's name enters the
expansion loop with the largest `int` as upper bound, the build finishes with enough
fuel, and the final date map binds every key `k` to the date looked up for the last
entry, in listing order, whose name writes `k`, and leaves `k` unbound when no entry
writes it. -/
theorem C5_build_finishes_last_writer_wins (w : FindOOD.World)
    (listing : List FindOOD.Content)
    (hlook : ∀ file ∈ listing, ∃ c cs, w.commits file.Path = some (c :: cs))
    (hw : w.canWrite = true)
    (hmax : ∀ file ∈ listing, FindOOD.upperBelowMaxInt file.Name = true) :
    ∃ N, ∀ fuel, N ≤ fuel →
      ∃ m, FindOOD.buildDateMap fuel w listing [] = .done m ∧
        ∀ k, m.get k = FindOOD.lastWriterDate fuel w listing k := by
  obtain ⟨N, hN⟩ := FindOOD.buildDateMap_finishes w listing hlook hw hmax
  refine ⟨N, fun fuel hfuel => ?_⟩
  obtain ⟨m, hm⟩ := hN fuel hfuel []
  refine ⟨m, hm, fun k => ?_⟩
  have := FindOOD.buildDateMap_get fuel w listing [] m k hm
  simpa [FindOOD.DateMap.get] using this

/-- C5 (amended) at the listing `[A covering T1-T5 at day 1, B covering T3-T4 at day 2]`:
the build finishes, T3 and T4 are bound to day 2 and T1, T2 and T5 to day 1. -/
theorem C5_build_finishes_last_writer_wins_witness :
    FindOOD.buildDateMap 10 FindOOD.overlapWorld FindOOD.overlapListing [] =
      .done [("T4", "2023-05-02T00:00:00Z"), ("T3", "2023-05-02T00:00:00Z"),
        ("T5", "2023-05-01T00:00:00Z"), ("T2", "2023-05-01T00:00:00Z"),
        ("T1", "2023-05-01T00:00:00Z")] ∧
    FindOOD.lastWriterDate 10 FindOOD.overlapWorld FindOOD.overlapListing "T3"
      = some "2023-05-02T00:00:00Z" ∧
    FindOOD.lastWriterDate 10 FindOOD.overlapWorld FindOOD.overlapListing "T5"
      = some "2023-05-01T00:00:00Z" ∧
    ∃ N, ∀ fuel, N ≤ fuel →
      ∃ m, FindOOD.buildDateMap fuel FindOOD.overlapWorld FindOOD.overlapListing []
          = .done m ∧
        ∀ k, m.get k
          = FindOOD.lastWriterDate fuel FindOOD.overlapWorld FindOOD.overlapListing k :=
  ⟨by decide, by decide, by decide,
    C5_build_finishes_last_writer_wins FindOOD.overlapWorld FindOOD.overlapListing
      (by
        intro file hfile
        simp only [FindOOD.overlapListing, List.mem_cons, List.mem_singleton,
          List.not_mem_nil, or_false] at hfile
        rcases hfile with rfl | rfl
        · exact ⟨_, _, rfl⟩
        · exact ⟨_, _, rfl⟩)
      rfl (by decide)⟩

/-- C6 (counterexample): for the commit list `[2023-01-01, 2023-05-25]` the function
returns the date of element 0, which is strictly older than the other date of the list. -/
theorem C6_counterexample :
    FindOOD.unorderedWorld.commits "windows/T1027-T1047.csv"
      = some [⟨"2023-01-01T00:00:00Z"⟩, ⟨"2023-05-25T20:38:57Z"⟩] ∧
    FindOOD.LoadLastCommitDate FindOOD.unorderedWorld "windows/T1027-T1047.csv"
      = .done "2023-01-01T00:00:00Z" ∧
    FindOOD.dateLE "2023-05-25T20:38:57Z" "2023-01-01T00:00:00Z" = false := by
  decide

/-- C6 (amended): for every non-empty list of commits returned for a path, the date
`LoadLastCommitDate` returns is the author date of the first element of the list; it is
the most recent date of the list when the list is ordered newest first. -/
theorem C6_returns_first_commit_date (w : FindOOD.World) (path : String)
    (c : FindOOD.CommitInfo) (cs : List FindOOD.CommitInfo)
    (h : w.commits path = some (c :: cs)) (hw : w.canWrite = true) :
    FindOOD.LoadLastCommitDate w path = .done c.Date ∧
    (List.Pairwise (fun a b => FindOOD.dateLE b.Date a.Date = true) (c :: cs) →
      ∀ c' ∈ c :: cs, FindOOD.dateLE c'.Date c.Date = true) := by
  constructor
  · unfold FindOOD.LoadLastCommitDate
    rw [h]
    simp [hw]
  · intro hs c' hc'
    rcases List.mem_cons.mp hc' with rfl | hmem
    · exact FindOOD.notLater_refl _
    · exact (List.pairwise_cons.mp hs).1 c' hmem

/-- C6 (amended) at a list ordered newest first. -/
theorem C6_returns_first_commit_date_witness :
    FindOOD.LoadLastCommitDate FindOOD.orderedWorld "windows/T1027-T1047.csv"
      = .done "2023-05-25T20:38:57Z" ∧
    ∀ c' ∈ [(⟨"2023-05-25T20:38:57Z"⟩ : FindOOD.CommitInfo), ⟨"2023-01-01T00:00:00Z"⟩],
      FindOOD.dateLE c'.Date "2023-05-25T20:38:57Z" = true :=
  let t := C6_returns_first_commit_date FindOOD.orderedWorld "windows/T1027-T1047.csv"
    ⟨"2023-05-25T20:38:57Z"⟩ [⟨"2023-01-01T00:00:00Z"⟩] rfl rfl
  ⟨t.1, t.2 (by decide)⟩

/-- C7 (counterexample): with no commits for the first entry the build panics, whereas
the listing without that entry builds the map with T1 and T2. -/
theorem C7_counterexample :
    FindOOD.buildDateMap 5 FindOOD.emptyLookupWorld
      [⟨"T7-T8.csv", "windows/T7-T8.csv"⟩, ⟨"T1-T2.csv", "windows/T1-T2.csv"⟩] []
      = .panicked ∧
    FindOOD.buildDateMap 5 FindOOD.emptyLookupWorld [⟨"T1-T2.csv", "windows/T1-T2.csv"⟩] []
      = .done [("T2", "2023-05-01T00:00:00Z"), ("T1", "2023-05-01T00:00:00Z")] := by
  decide

/-- C7 (amended): when the commit lookup for an entry fails or returns an empty commit
list, the build panics at that entry: no date map is produced and no later entry is
processed. -/
theorem C7_failed_lookup_panics (fuel : Nat) (w : FindOOD.World)
    (pre post : List FindOOD.Content) (file : FindOOD.Content) (m0 m1 : FindOOD.DateMap)
    (hpre : FindOOD.buildDateMap fuel w pre m0 = .done m1)
    (hfail : w.commits file.Path = none ∨ w.commits file.Path = some []) :
    FindOOD.buildDateMap fuel w (pre ++ file :: post) m0 = .panicked := by
  rw [FindOOD.buildDateMap_append fuel w pre _ m0 m1 hpre, FindOOD.buildDateMap,
    FindOOD.processFile, FindOOD.LoadLastCommitDate]
  rcases hfail with h | h <;> rw [h]

/-- C7 (amended) at the listing `[T1-T2.csv, T7-T8.csv, T3-T4.csv]` with no commits for
`T7-T8.csv`. -/
theorem C7_failed_lookup_panics_witness :
    FindOOD.buildDateMap 5 FindOOD.emptyLookupWorld
      ([⟨"T1-T2.csv", "windows/T1-T2.csv"⟩] ++
        ⟨"T7-T8.csv", "windows/T7-T8.csv"⟩ :: [⟨"T3-T4.csv", "windows/T3-T4.csv"⟩]) []
      = .panicked :=
  C7_failed_lookup_panics 5 FindOOD.emptyLookupWorld [⟨"T1-T2.csv", "windows/T1-T2.csv"⟩]
    [⟨"T3-T4.csv", "windows/T3-T4.csv"⟩] ⟨"T7-T8.csv", "windows/T7-T8.csv"⟩ []
    [("T2", "2023-05-01T00:00:00Z"), ("T1", "2023-05-01T00:00:00Z")] (by decide)
    (Or.inr (by decide))

/-- C8: for every range name `T<a>-T<b><suffix>` whose bounds both parse (they fit an
`int`) and with a > b, processing the entry finishes and leaves the date map unchanged:
no key is inserted. -/
theorem C8_inverted_range_inserts_nothing (fuel : Nat) (a b suffix : List Char)
    (date : String) (m : FindOOD.DateMap)
    (ha : FindOOD.isDecimal a = true) (hb : FindOOD.isDecimal b = true)
    (hs : FindOOD.noLeadingDigit suffix = true)
    (hva : FindOOD.decimalValue a < 2 ^ 63) (hvb : FindOOD.decimalValue b < 2 ^ 63)
    (hgt : FindOOD.decimalValue b < FindOOD.decimalValue a) :
    FindOOD.processName (fuel + 1) (FindOOD.rangeName a b suffix) date m = .done m := by
  rw [FindOOD.processName_rangeName (fuel + 1) a b suffix date m ha hb hs hva hvb,
    FindOOD.rangeLoop, if_neg (by exact_mod_cast Nat.not_le.mpr hgt)]

/-- C8 at the name `T1050-T1040.csv`. -/
theorem C8_inverted_range_inserts_nothing_witness :
    FindOOD.rangeName "1050".data "1040".data ".csv".data = "T1050-T1040.csv" ∧
    FindOOD.processName 1 (FindOOD.rangeName "1050".data "1040".data ".csv".data)
      "2023-05-01T00:00:00Z" [("T1045", "2023-01-01T00:00:00Z")]
      = .done [("T1045", "2023-01-01T00:00:00Z")] :=
  ⟨by decide, C8_inverted_range_inserts_nothing 0 "1050".data "1040".data ".csv".data
    "2023-05-01T00:00:00Z" [("T1045", "2023-01-01T00:00:00Z")]
    (by decide) (by decide) (by decide) (by decide) (by decide) (by decide)⟩

/-- C9 (counterexample): no reading of a timestamp off the entries of `found` agrees with
the date map: local {T1, T9} gives the same `found` whether the date map binds T1 or is
empty. -/
theorem C9_counterexample :
    FindOOD.CompareCommitDates 5 FindOOD.onlyT1World
      = .done ([("T1", "2023-05-01T00:00:00Z")],
          [⟨"T1", "atomics/T1"⟩, ⟨"T9", "atomics/T9"⟩]) ∧
    FindOOD.CompareCommitDates 5 FindOOD.noRemoteWorld
      = .done ([], [⟨"T1", "atomics/T1"⟩, ⟨"T9", "atomics/T9"⟩]) ∧
    ¬ ∃ remoteTimestamp : FindOOD.Content → Option String,
      ∀ (fuel : Nat) (w : FindOOD.World) (dateMap : FindOOD.DateMap)
        (found : List FindOOD.Content),
        FindOOD.CompareCommitDates fuel w = .done (dateMap, found) →
        ∀ e ∈ found, remoteTimestamp e = dateMap.get e.Name := by
  refine ⟨by decide, by decide, ?_⟩
  rintro ⟨ts, hts⟩
  have h1 := hts 5 FindOOD.onlyT1World [("T1", "2023-05-01T00:00:00Z")]
    [⟨"T1", "atomics/T1"⟩, ⟨"T9", "atomics/T9"⟩] (by decide) ⟨"T1", "atomics/T1"⟩ (by decide)
  have h2 := hts 5 FindOOD.noRemoteWorld []
    [⟨"T1", "atomics/T1"⟩, ⟨"T9", "atomics/T9"⟩] (by decide) ⟨"T1", "atomics/T1"⟩ (by decide)
  rw [h1] at h2
  revert h2
  decide

/-- C9 (amended): for every local mapping from technique identifier to a non-empty list
of test specs of that technique, the `found` list assembled by `CompareCommitDates` has
exactly one entry per local technique identifier, in the iteration order of the mapping,
namely `Content{tid, "atomics/" + tid}`; it is the same for every date map. -/
theorem C9_found_lists_local_ids (fuel : Nat) (w : FindOOD.World) (dateMap : FindOOD.DateMap)
    (found : List FindOOD.Content) (atomicTests : List (String × List FindOOD.TestSpec))
    (hrun : FindOOD.CompareCommitDates fuel w = .done (dateMap, found))
    (hloc : w.atomicTests = some atomicTests)
    (hne : ∀ p ∈ atomicTests, ∃ t ts, p.2 = t :: ts ∧ t.Technique = p.1) :
    found = atomicTests.map (fun p => FindOOD.localEntry p.1) := by
  unfold FindOOD.CompareCommitDates at hrun
  rw [hloc] at hrun
  split at hrun <;> try cases hrun
  split at hrun <;> try cases hrun
  split at hrun <;> try cases hrun
  rw [FindOOD.assembleFound_eq _ _ hne]
  simp

/-- C9 (amended) at local {T1, T9} with a date map that binds only T1. -/
theorem C9_found_lists_local_ids_witness :
    FindOOD.CompareCommitDates 5 FindOOD.onlyT1World
      = .done ([("T1", "2023-05-01T00:00:00Z")],
          [⟨"T1", "atomics/T1"⟩, ⟨"T9", "atomics/T9"⟩]) ∧
    ([⟨"T1", "atomics/T1"⟩, ⟨"T9", "atomics/T9"⟩] : List FindOOD.Content)
      = [("T1", [(⟨"T1", "1", "T1/T1.yaml"⟩ : FindOOD.TestSpec)]),
          ("T9", [⟨"T9", "1", "T9/T9.yaml"⟩])].map (fun p => FindOOD.localEntry p.1) :=
  ⟨by decide, C9_found_lists_local_ids 5 FindOOD.onlyT1World
    [("T1", "2023-05-01T00:00:00Z")] _ _ (by decide) rfl (by
      intro p hp
      simp only [List.mem_cons, List.mem_singleton, List.not_mem_nil, or_false] at hp
      rcases hp with rfl | rfl <;> exact ⟨_, _, rfl, rfl⟩)⟩

/-- C10 (code bug): for `T9223372036854775806-T9223372036854775807.csv` both bounds parse
and lower <= upper, and the expansion loop, with `lowerBound++` wrapping modulo 2^64,
does not terminate: no amount of fuel lets the processing of the name finish. -/
theorem C10_loop_diverges_at_maxInt (fuel : Nat) (date : String) (m : FindOOD.DateMap) :
    FindOOD.strconv.Atoi "9223372036854775806" = (9223372036854775806, none) ∧
    FindOOD.strconv.Atoi "9223372036854775807" = (9223372036854775807, none) ∧
    FindOOD.processName fuel "T9223372036854775806-T9223372036854775807.csv" date m
      = .outOfFuel := by
  refine ⟨by decide, by decide, ?_⟩
  have h : FindOOD.processName fuel "T9223372036854775806-T9223372036854775807.csv" date m
      = FindOOD.rangeLoop fuel 9223372036854775806 (2 ^ 63 - 1) date m := rfl
  rw [h]
  exact FindOOD.rangeLoop_maxInt fuel _ date m (by norm_num)
